import Mathlib

/-!
Shallow embedding of the path-resolution subsystem of
`crates/emmylua_code_analysis/src/config/mod.rs` (the `pre_process_emmyrc`
entry point and its helpers `pre_process_path`, `replace_env_var`,
`replace_placeholders`, `normalize_path`).

Modelling conventions:
* Rust `String` / UTF-8 `str` data is modelled as `List Char`.
* The process environment (`std::env::var`) is a parameter
  `Env := List Char → Option (List Char)`; `none` models both "not present"
  and "not unicode" (`var` errors in either case).
* `dirs::home_dir()` is a parameter `Option (List Char)`.
* The workspace root is a Rust `&Path`; `workspace.to_str()` can fail when
  the path is not valid UTF-8, so the workspace is modelled as
  `Option (List Char)`, `none` standing for a non-UTF-8 path.
* The build is the `cfg(not(windows))` one: path separators are `'/'`,
  `Component::Prefix` never occurs (the `pfx` state is kept to mirror the
  algorithm but is never produced by component parsing), and
  `Path::is_absolute` is "begins with a root".
* The two regexes are fixed constants that always compile, so the
  `Err(_) => return input` arms are dead; the `replace_all` loops are
  embedded as left-to-right scanners with the same leftmost-match
  semantics.  The regex class `\w` of the `regex` crate is Unicode-aware;
  it is modelled here by the ASCII word characters, which is exact on all
  ASCII inputs.
-/

set_option autoImplicit false

namespace EmmyluaConfig

/-- Environment model for `std::env::var`: `none` when the variable is
unset (or not unicode). -/
def Env : Type := List Char → Option (List Char)

/-- Value used by the source at a `std::env::var(key)` call that falls back
to the empty string (`unwrap_or_else(|_| String::new())` in
`replace_env_var`, `unwrap_or_default()` in `replace_placeholders`). -/
def envValue (env : Env) (key : List Char) : List Char :=
  match env key with
  | some v => v
  | none => []

/-- Word character of the regex class `\w` (ASCII part: letters, digits,
underscore). -/
def isWordChar (c : Char) : Bool :=
  ('a' ≤ c && c ≤ 'z') || ('A' ≤ c && c ≤ 'Z') || ('0' ≤ c && c ≤ '9') || c = '_'

/-- Whether a remainder list does not begin with a word character, i.e.
the maximal-run match of `\w+` cannot be extended into it. -/
def headNotWord (r : List Char) : Bool :=
  match r with
  | [] => true
  | c :: _ => !isWordChar c

/-- Maximal run of word characters at the head of the list, together with
the remainder: the match of `\w+` (or `([], cs)` when it does not match at
this position). -/
def takeWord : List Char → List Char × List Char
  | [] => ([], [])
  | c :: rest =>
    if isWordChar c then
      let wr := takeWord rest
      (c :: wr.1, wr.2)
    else ([], c :: rest)

theorem takeWord_snd_length : ∀ cs : List Char, (takeWord cs).2.length ≤ cs.length := by
  intro cs
  induction cs with
  | nil => simp [takeWord]
  | cons c rest ih =>
    simp only [takeWord]
    by_cases h : isWordChar c
    · simp only [h, if_true, List.length_cons]
      omega
    · simp [h]

/-- Embedding of `replace_env_var` (source lines 168–184): the regex
`\$(\w+)` is applied by `replace_all`, each match replaced by the value of
the named environment variable, empty when unset; replacement text is not
rescanned.  A `$` not followed by a word character is not a match and is
emitted unchanged. -/
def replace_env_var (env : Env) : List Char → List Char
  | [] => []
  | c :: rest =>
    if c = '$' then
      let wr := takeWord rest
      if wr.1 = [] then c :: replace_env_var env rest
      else envValue env wr.1 ++ replace_env_var env wr.2
    else c :: replace_env_var env rest
termination_by cs => cs.length
decreasing_by
  all_goals simp only [List.length_cons]
  all_goals
    first
    | exact Nat.lt_succ_self _
    | exact Nat.lt_succ_of_le (takeWord_snd_length _)

/-- Embedding of `path.replace("$", "")` (source line 133): every `$`
character is removed. -/
def stripDollar (cs : List Char) : List Char :=
  cs.filter (fun c => c ≠ '$')

/-- Scan for the first `'\x7d'` (closing brace), returning the characters
before it and the remainder after it: the way the regex `\{([^}]+)\}`
resolves once a `'\x7b'` has been seen (the `[^}]+` class cannot cross a
closing brace, so the match always ends at the first one). -/
def findClose : List Char → Option (List Char × List Char)
  | [] => none
  | c :: rest =>
    if c = '}' then some ([], rest)
    else
      match findClose rest with
      | some kr => some (c :: kr.1, kr.2)
      | none => none

theorem findClose_length : ∀ cs : List Char, ∀ k r : List Char,
    findClose cs = some (k, r) → r.length < cs.length := by
  intro cs
  induction cs with
  | nil => intro k r h; simp [findClose] at h
  | cons c rest ih =>
    intro k r h
    simp only [findClose] at h
    by_cases hc : c = '}'
    · rw [if_pos hc] at h
      simp only [Option.some.injEq, Prod.mk.injEq] at h
      obtain ⟨h1, h2⟩ := h
      subst h2
      simp only [List.length_cons]
      omega
    · rw [if_neg hc] at h
      cases hfc : findClose rest with
      | none => rw [hfc] at h; exact absurd h (by simp)
      | some kr =>
        rw [hfc] at h
        simp only [Option.some.injEq, Prod.mk.injEq] at h
        obtain ⟨h1, h2⟩ := h
        subst h2
        have := ih kr.1 kr.2 (by rw [hfc])
        simp only [List.length_cons]
        omega

/-- Embedding of `replace_placeholders` (source lines 186–205): the regex
`\{([^}]+)\}` is applied by `replace_all`; a key equal to
`workspaceFolder` is replaced by the workspace root string, a key starting
with `env:` by the named environment variable's value (empty when unset),
any other key is emitted verbatim (`caps[0]`).  An opening brace with no
later closing brace, or immediately followed by a closing brace (empty
key, which `[^}]+` cannot match), is emitted unchanged. -/
def replace_placeholders (env : Env) (workspace_folder : List Char) : List Char → List Char
  | [] => []
  | c :: rest =>
    if c = '{' then
      match hfc : findClose rest with
      | some kr =>
        if kr.1 = [] then c :: replace_placeholders env workspace_folder rest
        else
          (if kr.1 = "workspaceFolder".data then workspace_folder
           else if kr.1.take 4 = "env:".data then envValue env (kr.1.drop 4)
           else c :: kr.1 ++ ['}'])
          ++ replace_placeholders env workspace_folder kr.2
      | none => c :: replace_placeholders env workspace_folder rest
    else c :: replace_placeholders env workspace_folder rest
termination_by cs => cs.length
decreasing_by
  all_goals simp only [List.length_cons]
  all_goals
    first
    | exact Nat.lt_succ_self _
    | exact Nat.lt_succ_of_le (Nat.le_of_lt (findClose_length _ _ _ (by assumption)))

/-- Path component, mirroring `std::path::Component` (`Prefix`, `RootDir`,
`CurDir`, `ParentDir`, `Normal`).  On the `cfg(not(windows))` build the
`pfxComp` constructor is never produced by parsing. -/
inductive PComp where
  | pfxComp (p : List Char)
  | rootDir
  | curDir
  | parentDir
  | normal (n : List Char)
deriving DecidableEq

/-- Split a character list at every `'/'`; straight embedding of the slash
scanning done by `Path::components()` on Unix.  Always returns at least one
(possibly empty) piece; empty pieces correspond to repeated, leading or
trailing separators, which `components()` skips. -/
def splitSlash : List Char → List (List Char)
  | [] => [[]]
  | c :: cs =>
    if c = '/' then [] :: splitSlash cs
    else
      match splitSlash cs with
      | [] => [[c]]
      | p :: ps => (c :: p) :: ps

/-- Non-empty slash-separated pieces of a path string. -/
def pathParts (cs : List Char) : List (List Char) :=
  (splitSlash cs).filter (fun p => !p.isEmpty)

/-- Whether the Unix path has a root, i.e. begins with `'/'`
(`Path::has_root` / `Path::is_absolute` on Unix). -/
def hasRootC : List Char → Bool
  | '/' :: _ => true
  | _ => false

/-- Classification of one non-empty piece, as `Path::components()` does it:
`.` is `CurDir` (but yielded only in leading position of a relative path,
see `pathComps`), `..` is `ParentDir`, anything else is `Normal`. -/
def mapPart (p : List Char) : Option PComp :=
  if p = ['.'] then none
  else if p = ['.', '.'] then some PComp.parentDir
  else some (PComp.normal p)

/-- Embedding of `Path::components()` for the Unix build: an optional
leading `RootDir`, a leading `CurDir` kept only for a relative path whose
first piece is `.`, then the remaining pieces with interior `.` pieces
normalized away. -/
def pathComps (cs : List Char) : List PComp :=
  let parts := pathParts cs
  (if hasRootC cs then [PComp.rootDir] else []) ++
  (if !hasRootC cs && parts.head? = some ['.'] then [PComp.curDir] else []) ++
  parts.filterMap mapPart

/-- State of the `normalize_path` loop (source lines 210–244): the recorded
platform prefix, the root flag, and the output stack `out`.  The Rust `Vec`
pushes and pops at the end; here `out` is kept reversed, so the head of the
list is the top of the stack and the final rendering reverses it. -/
structure NormSt where
  pfx : Option (List Char)
  hasRoot : Bool
  out : List (List Char)
deriving DecidableEq

/-- One iteration of the `for comp in path.components()` loop of
`normalize_path`: record a prefix, set the root flag, skip `.`, pop on
`..` (pushing a literal `..` when there is nothing to pop and the path is
relative), push a normal component. -/
def normStep (st : NormSt) (c : PComp) : NormSt :=
  match c with
  | PComp.pfxComp p => { st with pfx := some p }
  | PComp.rootDir => { st with hasRoot := true }
  | PComp.curDir => st
  | PComp.parentDir =>
    match st.out with
    | _ :: rest => { st with out := rest }
    | [] =>
      if !st.hasRoot && st.pfx.isNone then { st with out := [['.', '.']] }
      else st
  | PComp.normal n => { st with out := n :: st.out }

/-- Initial state of the `normalize_path` loop. -/
def initSt : NormSt := ⟨none, false, []⟩

/-- Join pieces with `'/'` separators, as successive `PathBuf::push` calls
of relative components do. -/
def joinSlash : List (List Char) → List Char
  | [] => []
  | [p] => p
  | p :: ps => p ++ '/' :: joinSlash ps

/-- Reconstruction step of `normalize_path` (source lines 246–266): an
empty `PathBuf`, then the prefix if any, then `/` if the root flag is set,
then the stacked components in order. -/
def renderSt (st : NormSt) : List Char :=
  (match st.pfx with | some p => p | none => []) ++
  (if st.hasRoot then ['/'] else []) ++
  joinSlash st.out.reverse

/-- Embedding of `normalize_path` (source lines 210–267): fold the
components through `normStep` and render the final state. -/
def normalize_path (cs : List Char) : List Char :=
  renderSt ((pathComps cs).foldl normStep initSt)

/-- Embedding of `PathBuf::join` on Unix: an absolute argument replaces the
base; otherwise the argument is appended, inserting a `'/'` separator when
the base is non-empty and does not already end with one. -/
def pathJoin (base p : List Char) : List Char :=
  if hasRootC p then p
  else if base.isEmpty then p
  else if base.getLast? = some '/' then base ++ p
  else base ++ '/' :: p

/-- Embedding of `pre_process_path` (source lines 129–165).  The parameter
`workspace` is the result of `workspace.to_str()` (`none` for a non-UTF-8
workspace path), `home` the result of `dirs::home_dir()`.  The stages, in
source order: `replace_env_var`, stripping of `$`, the non-UTF-8 workspace
early return, `replace_placeholders`, the anchoring decision (with the
missing-home early return), and finally `normalize_path`. -/
def pre_process_path (env : Env) (home : Option (List Char))
    (path : List Char) (workspace : Option (List Char)) : List Char :=
  let path1 := replace_env_var env path
  let path2 := stripDollar path1
  match workspace with
  | none => path2
  | some ws =>
    let path3 := replace_placeholders env ws path2
    let result_buf : Option (List Char) :=
      if path3.head? = some '~' then
        match home with
        | none => none
        | some h => some (pathJoin h (path3.drop 1))
      else if path3.take 2 = ['.', '/'] then
        some (pathJoin ws (path3.drop 2))
      else if hasRootC path3 then
        some path3
      else
        some (pathJoin ws path3)
    match result_buf with
    | none => path3
    | some buf => normalize_path buf

/-- Byte-level model of the Rust slice `&s[i..]`: walk the characters,
consuming `Char.utf8Size` bytes per character; `none` models the panic that
the slice raises when `i` is not a character boundary or exceeds the byte
length of the string. -/
def dropBytesC : List Char → Nat → Option (List Char)
  | cs, 0 => some cs
  | [], _ + 1 => none
  | c :: cs, i + 1 =>
    if c.utf8Size ≤ i + 1 then dropBytesC cs (i + 1 - c.utf8Size) else none

/-- Checked variant of `pre_process_path` in which the two byte slices
`&path[1..]` and `&path[2..]` are modelled at the byte level by
`dropBytesC`, so that an out-of-range or non-boundary slice (a Rust panic)
surfaces as `none`.  Every other fallible operation (unset environment
variable, missing home directory, non-UTF-8 workspace) already returns a
string in the plain embedding, exactly as in the source; the two regex
patterns are constants that always compile, so their error arms are dead. -/
def pre_process_path_checked (env : Env) (home : Option (List Char))
    (path : List Char) (workspace : Option (List Char)) : Option (List Char) :=
  let path1 := replace_env_var env path
  let path2 := stripDollar path1
  match workspace with
  | none => some path2
  | some ws =>
    let path3 := replace_placeholders env ws path2
    if path3.head? = some '~' then
      match home with
      | none => some path3
      | some h =>
        match dropBytesC path3 1 with
        | none => none
        | some tail => some (normalize_path (pathJoin h tail))
    else if path3.take 2 = ['.', '/'] then
      match dropBytesC path3 2 with
      | none => none
      | some tail => some (normalize_path (pathJoin ws tail))
    else if hasRootC path3 then
      some (normalize_path path3)
    else
      some (normalize_path (pathJoin ws path3))

/-- Embedding of the `seen.insert` filtering inside `process_and_dedup`
(source lines 108–116): keep an element only when it is not in the set of
already-seen elements. -/
def dedupFirstAux {α : Type} [DecidableEq α] (seen : List α) : List α → List α
  | [] => []
  | p :: rest =>
    if p ∈ seen then dedupFirstAux seen rest
    else p :: dedupFirstAux (p :: seen) rest

/-- Modelled from the spec: "removes duplicates by exact string equality,
keeping only the first occurrence, preserving relative order of survivors".
Keep the head and drop all of its later occurrences, recursively.  This is
the specification-side deduplicator, compared with the code-side
`dedupFirstAux` in the C7 theorem. -/
def keepFirstSpec {α : Type} [DecidableEq α] : List α → List α
  | [] => []
  | x :: xs => x :: keepFirstSpec (xs.filter (fun y => y ≠ x))
termination_by l => l.length
decreasing_by
  simp only [List.length_cons]
  exact Nat.lt_succ_of_le (List.length_filter_le _ _)

/-- Embedding of `process_and_dedup` (source lines 108–116): map
`pre_process_path` over the entries, keeping an entry only when its
processed form was not seen before. -/
def process_and_dedup (env : Env) (home : Option (List Char))
    (entries : List (List Char)) (workspace_root : Option (List Char)) : List (List Char) :=
  dedupFirstAux [] (entries.map (fun root => pre_process_path env home root workspace_root))

/-- Workspace section of the configuration.  The `workspace_roots`,
`library` and `ignore_dir` fields are the three path lists rewritten by
`pre_process_emmyrc`.  Modelled from the spec: the remaining fields of
`EmmyrcWorkspace` are plain data defined in the out-of-scope `configs`
module and are modelled by the single abstract component `rest`. -/
structure EmmyrcWorkspace (α : Type) where
  workspace_roots : List (List Char)
  library : List (List Char)
  ignore_dir : List (List Char)
  rest : α

/-- Resource section of the configuration.  `paths` is the fourth path
list rewritten by `pre_process_emmyrc`.  Modelled from the spec: the
remaining fields of `EmmyrcResource` are out-of-scope plain data, modelled
by the abstract component `rest`. -/
structure EmmyrcResource (β : Type) where
  paths : List (List Char)
  rest : β

/-- The `Emmyrc` configuration structure (source lines 24–64), with the
same eighteen fields.  The sixteen fields whose contents
`pre_process_emmyrc` never touches are plain data defined in the
out-of-scope `configs` module; their types are abstract parameters. -/
structure Emmyrc (Comp Diag Sig Hint Run WR RR CL St Sem Ref Hov DC CA IV Dc Fmt : Type) where
  schema : Option (List Char)
  completion : Comp
  diagnostics : Diag
  signature : Sig
  hint : Hint
  runtime : Run
  workspace : EmmyrcWorkspace WR
  resource : EmmyrcResource RR
  code_lens : CL
  strict : St
  semantic_tokens : Sem
  references : Ref
  hover : Hov
  document_color : DC
  code_action : CA
  inline_values : IV
  doc : Dc
  format : Fmt

/-- Embedding of `Emmyrc::pre_process_emmyrc` (source lines 107–126): the
four path lists are each passed through `process_and_dedup` and written
back; nothing else is assigned. -/
def pre_process_emmyrc {Comp Diag Sig Hint Run WR RR CL St Sem Ref Hov DC CA IV Dc Fmt : Type}
    (env : Env) (home : Option (List Char))
    (e : Emmyrc Comp Diag Sig Hint Run WR RR CL St Sem Ref Hov DC CA IV Dc Fmt)
    (workspace_root : Option (List Char)) :
    Emmyrc Comp Diag Sig Hint Run WR RR CL St Sem Ref Hov DC CA IV Dc Fmt :=
  { e with
    workspace :=
      { e.workspace with
        workspace_roots := process_and_dedup env home e.workspace.workspace_roots workspace_root
        library := process_and_dedup env home e.workspace.library workspace_root
        ignore_dir := process_and_dedup env home e.workspace.ignore_dir workspace_root }
    resource :=
      { e.resource with
        paths := process_and_dedup env home e.resource.paths workspace_root } }

/-- Well-formed output-stack segment after normalization: non-empty, free
of separators, and not the `.` component. -/
def GoodSeg (p : List Char) : Prop :=
  p ≠ [] ∧ '/' ∉ p ∧ p ≠ ['.']

/-- Components that can appear after the leading root marker in the result
of `pathComps`: `CurDir`, `ParentDir`, or a well-formed `Normal`. -/
def TailComp (c : PComp) : Prop :=
  c = PComp.curDir ∨ c = PComp.parentDir ∨
  ∃ n, c = PComp.normal n ∧ GoodSeg n ∧ n ≠ ['.', '.']

/-- Loop invariant of `normalize_path` on the Unix build: no prefix was
recorded, the root flag matches the path being processed, every stacked
segment is well formed, a literal `..` can sit only at the bottom of the
stack, and a rooted path stacks no `..` at all. -/
def StInv (r : Bool) (st : NormSt) : Prop :=
  st.pfx = none ∧ st.hasRoot = r ∧
  (∀ p ∈ st.out, GoodSeg p) ∧
  (∀ p ∈ st.out.dropLast, p ≠ ['.', '.']) ∧
  (r = true → ∀ p ∈ st.out, p ≠ ['.', '.'])

/-- Component corresponding to a rendered output segment when it is parsed
back: a literal `..` segment reads back as `ParentDir`, everything else as
`Normal`. -/
def segComp (p : List Char) : PComp :=
  if p = ['.', '.'] then PComp.parentDir else PComp.normal p

/-- Empty environment: no variable is set. -/
def env0 : Env := fun _ => none

/-- Environment where exactly `X` is set, to `v`. -/
def envX : Env := fun w => if w = ['X'] then some "v".data else none

/-- Environment where exactly `A` is set, to the dollar-containing value
`$x`. -/
def envA : Env := fun w => if w = ['A'] then some "$x".data else none

/-- Environment where exactly `FOO` is set, to `bar`. -/
def envF : Env := fun w => if w = "FOO".data then some "bar".data else none

/-! Helper lemmas about slash splitting and joining, used by the
normalization round-trip argument. -/

theorem splitSlash_ne_nil (cs : List Char) : splitSlash cs ≠ [] := by
  induction cs with
  | nil => simp [splitSlash]
  | cons c rest ih =>
    simp only [splitSlash]
    by_cases hc : c = '/'
    · simp [hc]
    · rw [if_neg hc]
      cases h : splitSlash rest with
      | nil => simp
      | cons p ps => simp

theorem splitSlash_slash (cs : List Char) : splitSlash ('/' :: cs) = [] :: splitSlash cs := by
  simp [splitSlash]

theorem splitSlash_cons_ne {c : Char} (hc : c ≠ '/') (cs : List Char) {p : List Char}
    {ps : List (List Char)} (h : splitSlash cs = p :: ps) :
    splitSlash (c :: cs) = (c :: p) :: ps := by
  simp [splitSlash, hc, h]

theorem splitSlash_mem_noslash (cs : List Char) : ∀ p ∈ splitSlash cs, '/' ∉ p := by
  induction cs with
  | nil => intro p hp; simp [splitSlash] at hp; simp [hp]
  | cons c rest ih =>
    intro p hp
    by_cases hc : c = '/'
    · subst hc
      rw [splitSlash_slash] at hp
      rcases List.mem_cons.mp hp with h | h
      · simp [h]
      · exact ih p h
    · cases h : splitSlash rest with
      | nil => exact absurd h (splitSlash_ne_nil rest)
      | cons q qs =>
        rw [splitSlash_cons_ne hc rest h] at hp
        rcases List.mem_cons.mp hp with h1 | h1
        · subst h1
          intro hmem
          rcases List.mem_cons.mp hmem with h2 | h2
          · exact hc h2.symm
          · exact ih q (h ▸ List.mem_cons_self q qs) h2
        · exact ih p (h ▸ List.mem_cons_of_mem q h1)

theorem splitSlash_noslash {p : List Char} (h : '/' ∉ p) : splitSlash p = [p] := by
  induction p with
  | nil => simp [splitSlash]
  | cons c rest ih =>
    have hc : c ≠ '/' := fun hcc => h (hcc ▸ List.mem_cons_self c rest)
    have hr : '/' ∉ rest := fun hm => h (List.mem_cons_of_mem c hm)
    exact splitSlash_cons_ne hc rest (ih hr)

theorem splitSlash_append {p rest : List Char} (h : '/' ∉ p) :
    splitSlash (p ++ '/' :: rest) = p :: splitSlash rest := by
  induction p with
  | nil => simpa using splitSlash_slash rest
  | cons c q ih =>
    have hc : c ≠ '/' := fun hcc => h (hcc ▸ List.mem_cons_self c q)
    have hq : '/' ∉ q := fun hm => h (List.mem_cons_of_mem c hm)
    rw [List.cons_append]
    exact splitSlash_cons_ne hc _ (ih hq)

theorem joinSlash_cons {p : List Char} {ps : List (List Char)} (h : ps ≠ []) :
    joinSlash (p :: ps) = p ++ '/' :: joinSlash ps := by
  cases ps with
  | nil => exact absurd rfl h
  | cons q qs => simp [joinSlash]

theorem splitSlash_joinSlash {ps : List (List Char)} (h : ∀ p ∈ ps, '/' ∉ p) (hne : ps ≠ []) :
    splitSlash (joinSlash ps) = ps := by
  induction ps with
  | nil => exact absurd rfl hne
  | cons p qs ih =>
    cases hq : qs with
    | nil =>
      subst hq
      simpa [joinSlash] using splitSlash_noslash (h p (List.mem_cons_self p []))
    | cons q qs' =>
      rw [← hq]
      have hqne : qs ≠ [] := by simp [hq]
      rw [joinSlash_cons hqne, splitSlash_append (h p (List.mem_cons_self p qs))]
      rw [ih (fun x hx => h x (List.mem_cons_of_mem p hx)) hqne]

theorem pathParts_joinSlash {ps : List (List Char)} (h : ∀ p ∈ ps, p ≠ [] ∧ '/' ∉ p) :
    pathParts (joinSlash ps) = ps := by
  cases hps : ps with
  | nil => simp [pathParts, joinSlash, splitSlash]
  | cons p qs =>
    rw [← hps]
    unfold pathParts
    rw [splitSlash_joinSlash (fun x hx => (h x hx).2) (by simp [hps])]
    apply List.filter_eq_self.mpr
    intro a ha
    simpa using (h a ha).1

theorem pathParts_root (x : List Char) : pathParts ('/' :: x) = pathParts x := by
  unfold pathParts
  rw [splitSlash_slash]
  simp [List.filter]

theorem hasRootC_cons_ne {c : Char} (hc : c ≠ '/') (t : List Char) :
    hasRootC (c :: t) = false := by
  unfold hasRootC
  split
  · rename_i heq
    exact absurd (List.head_eq_of_cons_eq heq.symm).symm hc
  · rfl

theorem hasRootC_joinSlash {ps : List (List Char)} (h : ∀ p ∈ ps, p ≠ [] ∧ '/' ∉ p) :
    hasRootC (joinSlash ps) = false := by
  cases ps with
  | nil => simp [joinSlash, hasRootC]
  | cons p qs =>
    have hp := h p (List.mem_cons_self p qs)
    cases hpc : p with
    | nil => exact absurd hpc hp.1
    | cons c p' =>
      have hc : c ≠ '/' := fun hcc => hp.2 (hpc ▸ hcc ▸ List.mem_cons_self c p')
      cases qs with
      | nil =>
        simpa [joinSlash, hpc] using hasRootC_cons_ne hc p'
      | cons q qs' =>
        rw [joinSlash_cons (by simp), List.cons_append]
        exact hasRootC_cons_ne hc _

theorem pathParts_all (cs : List Char) : ∀ p ∈ pathParts cs, p ≠ [] ∧ '/' ∉ p := by
  intro p hp
  unfold pathParts at hp
  have hmem := List.mem_of_mem_filter hp
  have hkeep := List.of_mem_filter hp
  refine ⟨?_, splitSlash_mem_noslash cs p hmem⟩
  simpa using hkeep

theorem filterMap_mapPart_tail (cs : List Char) :
    ∀ c ∈ (pathParts cs).filterMap mapPart, TailComp c := by
  intro c hc
  rw [List.mem_filterMap] at hc
  obtain ⟨p, hp, hmp⟩ := hc
  obtain ⟨hne, hns⟩ := pathParts_all cs p hp
  unfold mapPart at hmp
  by_cases h1 : p = ['.']
  · simp [h1] at hmp
  · rw [if_neg h1] at hmp
    by_cases h2 : p = ['.', '.']
    · rw [if_pos h2] at hmp
      exact Or.inr (Or.inl (Option.some.inj hmp).symm)
    · rw [if_neg h2] at hmp
      exact Or.inr (Or.inr ⟨p, (Option.some.inj hmp).symm, ⟨hne, hns, h1⟩, h2⟩)

theorem normStep_inv {r : Bool} {c : PComp} {st : NormSt}
    (hc : TailComp c) (h : StInv r st) : StInv r (normStep st c) := by
  obtain ⟨hpfx, hroot, hgood, hdrop, hr⟩ := h
  rcases hc with hcur | hpar | ⟨n, hn, hgn, hnd⟩
  · subst hcur
    exact ⟨hpfx, hroot, hgood, hdrop, hr⟩
  · subst hpar
    cases hout : st.out with
    | nil =>
      show StInv r (match st.out with
        | _ :: rest => { st with out := rest }
        | [] => if !st.hasRoot && st.pfx.isNone then { st with out := [['.', '.']] } else st)
      rw [hout]
      by_cases hcase : (!st.hasRoot && st.pfx.isNone) = true
      · simp only [hcase, if_true]
        refine ⟨hpfx, hroot, ?_, ?_, ?_⟩
        · intro p hp
          simp at hp
          subst hp
          exact ⟨by simp, by decide, by decide⟩
        · intro p hp
          simp [List.dropLast] at hp
        · intro hrt
          exfalso
          rw [Bool.and_eq_true, Bool.not_eq_true'] at hcase
          rw [hcase.1] at hroot
          rw [← hroot] at hrt
          exact Bool.false_ne_true hrt
      · simp only [Bool.not_eq_true] at hcase
        simp only [hcase, if_false]
        exact ⟨hpfx, hroot, hgood, hdrop, hr⟩
    | cons t rest =>
      show StInv r (match st.out with
        | _ :: rest => { st with out := rest }
        | [] => if !st.hasRoot && st.pfx.isNone then { st with out := [['.', '.']] } else st)
      rw [hout]
      refine ⟨hpfx, hroot, ?_, ?_, ?_⟩
      · intro p hp
        exact hgood p (hout ▸ List.mem_cons_of_mem t hp)
      · intro p hp
        cases hrest : rest with
        | nil => simp [hrest] at hp
        | cons u us =>
          apply hdrop
          rw [hout, hrest]
          rw [List.dropLast_cons₂]
          exact List.mem_cons_of_mem t (hrest ▸ hp)
      · intro hrt p hp
        exact hr hrt p (hout ▸ List.mem_cons_of_mem t hp)
  · subst hn
    refine ⟨hpfx, hroot, ?_, ?_, ?_⟩
    · intro p hp
      rcases List.mem_cons.mp hp with h1 | h1
      · exact h1 ▸ hgn
      · exact hgood p h1
    · intro p hp
      simp only [normStep] at hp
      cases hout : st.out with
      | nil =>
        rw [hout] at hp
        simp [List.dropLast] at hp
      | cons t rest =>
        rw [hout, List.dropLast_cons₂] at hp
        rcases List.mem_cons.mp hp with h1 | h1
        · exact h1 ▸ hnd
        · exact hdrop p (hout ▸ h1)
    · intro hrt p hp
      rcases List.mem_cons.mp hp with h1 | h1
      · exact h1 ▸ hnd
      · exact hr hrt p h1

theorem foldl_normStep_inv {r : Bool} :
    ∀ (l : List PComp), (∀ c ∈ l, TailComp c) →
    ∀ st : NormSt, StInv r st → StInv r (l.foldl normStep st) := by
  intro l
  induction l with
  | nil => intro _ st h; exact h
  | cons c cs ih =>
    intro hl st h
    rw [List.foldl_cons]
    exact ih (fun d hd => hl d (List.mem_cons_of_mem c hd))
      (normStep st c) (normStep_inv (hl c (List.mem_cons_self c cs)) h)

theorem normalize_state (cs : List Char) :
    StInv (hasRootC cs) ((pathComps cs).foldl normStep initSt) := by
  unfold pathComps
  have htail : ∀ c ∈ (if !hasRootC cs && (pathParts cs).head? = some ['.']
      then [PComp.curDir] else []) ++ (pathParts cs).filterMap mapPart, TailComp c := by
    intro c hc
    rcases List.mem_append.mp hc with h1 | h1
    · split at h1
      · simp at h1
        exact Or.inl h1
      · simp at h1
    · exact filterMap_mapPart_tail cs c h1
  cases hR : hasRootC cs
  · simp only [hR, Bool.false_eq_true, if_false, List.nil_append]
    exact foldl_normStep_inv _ (by simpa [hR] using htail) initSt
      ⟨rfl, rfl, by simp [initSt], by simp [initSt], by simp [initSt]⟩
  · simp only [hR, if_true]
    rw [List.append_assoc, List.foldl_append]
    exact foldl_normStep_inv _ (by simpa [hR] using htail) _
      ⟨rfl, rfl, by simp [initSt, normStep], by simp [initSt, normStep], by simp [initSt, normStep]⟩

theorem filterMap_mapPart_eq_map {l : List (List Char)} (h : ∀ p ∈ l, p ≠ ['.']) :
    l.filterMap mapPart = l.map segComp := by
  induction l with
  | nil => rfl
  | cons p ps ih =>
    rw [List.filterMap_cons, List.map_cons]
    have hp := h p (List.mem_cons_self p ps)
    have : mapPart p = some (segComp p) := by
      unfold mapPart segComp
      rw [if_neg hp]
      by_cases h2 : p = ['.', '.'] <;> simp [h2]
    rw [this, ih (fun q hq => h q (List.mem_cons_of_mem p hq))]

theorem renderSt_none (r : Bool) (out : List (List Char)) :
    renderSt ⟨none, r, out⟩ = (if r then ['/'] else []) ++ joinSlash out.reverse := rfl

theorem pathComps_renderSt {r : Bool} {out : List (List Char)}
    (hg : ∀ p ∈ out, GoodSeg p) :
    pathComps (renderSt ⟨none, r, out⟩) =
      (if r then [PComp.rootDir] else []) ++ out.reverse.map segComp := by
  have hrev : ∀ p ∈ out.reverse, p ≠ [] ∧ '/' ∉ p := by
    intro p hp
    have := hg p (List.mem_reverse.mp hp)
    exact ⟨this.1, this.2.1⟩
  have hrevdot : ∀ p ∈ out.reverse, p ≠ ['.'] := by
    intro p hp
    exact (hg p (List.mem_reverse.mp hp)).2.2
  cases r with
  | false =>
    rw [renderSt_none]
    simp only [if_false, List.nil_append, Bool.false_eq_true]
    have hroot : hasRootC (joinSlash out.reverse) = false := hasRootC_joinSlash hrev
    unfold pathComps
    rw [hroot]
    simp only [Bool.false_eq_true, if_false, List.nil_append, Bool.not_false, Bool.true_and]
    rw [pathParts_joinSlash hrev]
    have hlead : ¬ out.getLast? = some ['.'] := by
      rw [← List.head?_reverse]
      cases hrv : out.reverse with
      | nil => simp
      | cons p ps =>
        simp only [List.head?_cons]
        intro hcon
        exact hrevdot p (hrv ▸ List.mem_cons_self p ps) (Option.some.inj hcon)
    rw [filterMap_mapPart_eq_map hrevdot]
    simp [hlead]
  | true =>
    rw [renderSt_none]
    simp only [if_true]
    have hform : ['/'] ++ joinSlash out.reverse = '/' :: joinSlash out.reverse := rfl
    rw [hform]
    unfold pathComps
    have hroot : hasRootC ('/' :: joinSlash out.reverse) = true := rfl
    rw [hroot]
    simp only [if_true, Bool.not_true, Bool.false_and, Bool.false_eq_true, if_false,
      List.nil_append]
    rw [pathParts_root, pathParts_joinSlash hrev, filterMap_mapPart_eq_map hrevdot]
    simp

theorem foldl_normals (l : List (List Char)) :
    ∀ st : NormSt, ((l.map PComp.normal).foldl normStep st) = { st with out := l.reverse ++ st.out } := by
  induction l with
  | nil => intro st; simp
  | cons a as ih =>
    intro st
    rw [List.map_cons, List.foldl_cons, ih (normStep st (PComp.normal a))]
    simp [normStep, List.append_assoc]

theorem map_segComp_no_dots {l : List (List Char)} (h : ∀ p ∈ l, p ≠ ['.', '.']) :
    l.map segComp = l.map PComp.normal := by
  apply List.map_congr_left
  intro p hp
  unfold segComp
  rw [if_neg (h p hp)]

theorem refold_renderSt {r : Bool} {out : List (List Char)}
    (hdrop : ∀ p ∈ out.dropLast, p ≠ ['.', '.'])
    (hr : r = true → ∀ p ∈ out, p ≠ ['.', '.']) :
    ((if r then [PComp.rootDir] else []) ++ out.reverse.map segComp).foldl normStep initSt
      = ⟨none, r, out⟩ := by
  rw [List.foldl_append]
  have hbase : ((if r then [PComp.rootDir] else []) : List PComp).foldl normStep initSt
      = ⟨none, r, []⟩ := by
    cases r <;> simp [initSt, normStep]
  rw [hbase]
  cases hrev : out.reverse with
  | nil =>
    have : out = [] := by
      have := congrArg List.reverse hrev
      simpa using this
    simp [this]
  | cons b bs =>
    have hout : out = bs.reverse ++ [b] := by
      have := congrArg List.reverse hrev
      simpa using this
    have hbs : ∀ p ∈ bs, p ≠ ['.', '.'] := by
      intro p hp
      apply hdrop
      rw [hout, List.dropLast_concat]
      exact List.mem_reverse.mpr hp
    by_cases hb : b = ['.', '.']
    · have hrF : r = false := by
        cases hR : r with
        | false => rfl
        | true =>
          exfalso
          exact hr hR b (hout ▸ List.mem_append_right bs.reverse (List.mem_cons_self b [])) hb
      subst hrF
      rw [List.map_cons]
      have hsb : segComp b = PComp.parentDir := by unfold segComp; rw [if_pos hb]
      rw [hsb, List.foldl_cons]
      have hstep : normStep ⟨none, false, []⟩ PComp.parentDir = ⟨none, false, [['.', '.']]⟩ := by
        simp [normStep]
      rw [hstep, map_segComp_no_dots hbs, foldl_normals]
      rw [hout, hb]
    · have hall : ∀ p ∈ b :: bs, p ≠ ['.', '.'] := by
        intro p hp
        rcases List.mem_cons.mp hp with h1 | h1
        · exact h1 ▸ hb
        · exact hbs p h1
      rw [map_segComp_no_dots hall, foldl_normals]
      rw [hout]
      simp

/-- Characterization of the final loop state of `normalize_path`, combining
the invariant with the rendering round trip. -/
theorem normalize_path_renderSt (cs : List Char) :
    normalize_path (renderSt ((pathComps cs).foldl normStep initSt))
      = renderSt ((pathComps cs).foldl normStep initSt) := by
  have hst := normalize_state cs
  obtain ⟨hpfx, hroot, hgood, hdrop, hr⟩ := hst
  set st := (pathComps cs).foldl normStep initSt with hstdef
  have hstEq : st = ⟨none, hasRootC cs, st.out⟩ := by
    cases hs : st
    simp only [hs] at hpfx hroot
    simp [hpfx, hroot]
  unfold normalize_path
  rw [hstEq]
  rw [pathComps_renderSt hgood]
  rw [refold_renderSt hdrop hr]

/-- C3: lexical normalization is idempotent: for every path P,
`normalize_path (normalize_path P) = normalize_path P`. -/
theorem c3_normalize_idempotent (cs : List Char) :
    normalize_path (normalize_path cs) = normalize_path cs :=
  normalize_path_renderSt cs

/-- C2 (evaluation at the failing input): the source's `normalize_path`
does not preserve leading ascents of a relative path: on `../../a` the
second `..` pops the previously retained literal `..` — `out.pop()` does
not check what it pops — so the result is `a`, not `../../a` as the claim
states. -/
theorem c2_ascents_failing_input : normalize_path "../../a".data = "a".data := by
  decide

/-- C4: in `normalize_path`, a `..` component met when the output stack is
empty and the path has a root or a platform prefix is silently discarded
(the state is unchanged, so normalization never ascends above the root);
concretely, normalizing `/a/../../b` yields `/b`. -/
theorem c4_rooted_dotdot_discarded :
    (∀ st : NormSt, st.out = [] → (st.hasRoot = true ∨ st.pfx ≠ none) →
      normStep st PComp.parentDir = st) ∧
    normalize_path "/a/../../b".data = "/b".data := by
  constructor
  · intro st hout hcase
    show (match st.out with
      | _ :: rest => { st with out := rest }
      | [] => if !st.hasRoot && st.pfx.isNone then { st with out := [['.', '.']] } else st) = st
    rw [hout]
    have hfalse : (!st.hasRoot && st.pfx.isNone) = false := by
      rcases hcase with h | h
      · simp [h]
      · simp [Option.isNone_iff_eq_none, h]
        intro
        exact Option.ne_none_iff_isSome.mp h
    rw [hfalse]
    simp
  · decide

/-- Witness for C4: the root state with empty stack absorbs a `..`. -/
theorem c4_rooted_dotdot_discarded_witness :
    normStep ⟨none, true, []⟩ PComp.parentDir = ⟨none, true, []⟩ :=
  c4_rooted_dotdot_discarded.1 ⟨none, true, []⟩ rfl (Or.inl rfl)

/-- C1 (evaluation at the failing input): with home directory `/home/u`
and workspace `/ws`, the input `~/abc` resolves to `/abc`, not to
`/home/u/abc`: the remainder after `~` is the absolute path `/abc`, and
`PathBuf::join` replaces its base when the argument is absolute, so the
home directory is discarded and the result is not anchored under it. -/
theorem c1_tilde_failing_input :
    pre_process_path env0 (some "/home/u".data) "~/abc".data (some "/ws".data)
      = "/abc".data ∧
    pre_process_path env0 (some "/home/u".data) "~/abc".data (some "/ws".data)
      ≠ "/home/u/abc".data := by
  have h : pre_process_path env0 (some "/home/u".data) "~/abc".data (some "/ws".data)
      = "/abc".data := by
    simp [pre_process_path, replace_env_var, takeWord, stripDollar, replace_placeholders,
      findClose, pathJoin, envValue, isWordChar, env0]
    decide
  exact ⟨h, by rw [h]; decide⟩

theorem takeWord_append {w r : List Char} (hw : ∀ c ∈ w, isWordChar c = true)
    (hr : headNotWord r = true) : takeWord (w ++ r) = (w, r) := by
  induction w with
  | nil =>
    cases r with
    | nil => rfl
    | cons c rest =>
      unfold headNotWord at hr
      simp only [Bool.not_eq_true'] at hr
      simp [takeWord, hr]
  | cons c w' ih =>
    have hc := hw c (List.mem_cons_self c w')
    rw [List.cons_append]
    simp only [takeWord, hc, if_true]
    rw [ih (fun d hd => hw d (List.mem_cons_of_mem c hd))]

theorem findClose_append {key r : List Char} (hk : '}' ∉ key) :
    findClose (key ++ '}' :: r) = some (key, r) := by
  induction key with
  | nil => simp [findClose]
  | cons c k ih =>
    have hc : c ≠ '}' := fun hcc => hk (hcc ▸ List.mem_cons_self c k)
    rw [List.cons_append]
    simp only [findClose, hc, if_false]
    rw [ih (fun hm => hk (List.mem_cons_of_mem c hm))]

/-- C5: `$NAME` substitution (word-character names, value of the variable
or empty when unset) and the stripping of every remaining `$` happen
before `\x7b...\x7d` placeholder substitution, so text a placeholder introduces
is never `$`-processed.  Stated as: (1) a `$`-match with a maximal word
run is replaced by `envValue` and scanning resumes after it; (2) after the
strip stage no `$` remains; (3) yet a full pipeline run whose placeholder
`\x7benv:A\x7d` expands to the dollar-containing value `$x` keeps that `$`
in the final result. -/
theorem c5_env_before_placeholders :
    (∀ (env : Env) (w r : List Char), w ≠ [] → (∀ c ∈ w, isWordChar c = true) →
      headNotWord r = true →
      replace_env_var env ('$' :: (w ++ r)) = envValue env w ++ replace_env_var env r) ∧
    (∀ cs : List Char, '$' ∉ stripDollar cs) ∧
    pre_process_path envA none "\x7benv:A\x7d".data (some "/w".data) = "/w/$x".data := by
  refine ⟨?_, ?_, ?_⟩
  · intro env w r hw hwc hr
    simp only [replace_env_var]
    rw [takeWord_append hwc hr]
    simp only [if_neg hw]
    simp
  · intro cs
    simp [stripDollar, List.mem_filter]
  · simp [pre_process_path, replace_env_var, takeWord, stripDollar, replace_placeholders,
      findClose, pathJoin, envValue, isWordChar, envA]
    decide

/-- Witness for C5: the variable `FOO` set to `bar` is substituted in
`$FOO/lib`, the scan resuming after the word run. -/
theorem c5_env_before_placeholders_witness :
    replace_env_var envF ('$' :: ("FOO".data ++ "/lib".data)) =
      envValue envF "FOO".data ++ replace_env_var envF "/lib".data :=
  c5_env_before_placeholders.1 envF "FOO".data "/lib".data (by decide) (by decide) (by decide)

/-- C6: each `\x7bNAME\x7d` token is replaced by the workspace root when `NAME`
is `workspaceFolder`, by the named environment variable's value (empty if
unset) when `NAME` starts with `env:`, and is left verbatim otherwise;
with concrete instances of all three branches. -/
theorem c6_placeholder_semantics :
    (∀ (env : Env) (ws key r : List Char), key ≠ [] → '}' ∉ key →
      replace_placeholders env ws ('{' :: (key ++ '}' :: r)) =
        (if key = "workspaceFolder".data then ws
         else if key.take 4 = "env:".data then envValue env (key.drop 4)
         else '{' :: key ++ ['}']) ++ replace_placeholders env ws r) ∧
    replace_placeholders env0 "/ws".data "\x7bworkspaceFolder\x7d/src".data = "/ws/src".data ∧
    replace_placeholders envF "/ws".data "\x7benv:FOO\x7d".data = "bar".data ∧
    replace_placeholders env0 "/ws".data "\x7bunknown\x7d".data = "\x7bunknown\x7d".data := by
  refine ⟨?_, ?_, ?_, ?_⟩
  · intro env ws key r hk hbk
    simp only [replace_placeholders]
    rw [findClose_append hbk]
    simp only [if_neg hk]
    simp
  · simp [replace_placeholders, findClose, envValue, env0]
  · simp [replace_placeholders, findClose, envValue, envF]
  · simp [replace_placeholders, findClose, envValue, env0]

/-- Witness for C6: the `workspaceFolder` placeholder followed by `/src`
is replaced by the workspace root. -/
theorem c6_placeholder_semantics_witness :
    replace_placeholders env0 "/ws".data ('{' :: ("workspaceFolder".data ++ '}' :: "/src".data)) =
      (if "workspaceFolder".data = "workspaceFolder".data then "/ws".data
       else if "workspaceFolder".data.take 4 = "env:".data
         then envValue env0 ("workspaceFolder".data.drop 4)
       else '{' :: "workspaceFolder".data ++ ['}']) ++
      replace_placeholders env0 "/ws".data "/src".data :=
  c6_placeholder_semantics.1 env0 "/ws".data "workspaceFolder".data "/src".data
    (by decide) (by decide)

theorem keepFirstSpec_nil {α : Type} [DecidableEq α] :
    keepFirstSpec ([] : List α) = [] := by
  simp only [keepFirstSpec]

theorem keepFirstSpec_cons {α : Type} [DecidableEq α] (x : α) (xs : List α) :
    keepFirstSpec (x :: xs) = x :: keepFirstSpec (xs.filter (fun y => decide (y ≠ x))) := by
  simp only [keepFirstSpec]

theorem dedupFirstAux_eq_keepFirst {α : Type} [DecidableEq α] :
    ∀ (l seen : List α),
      dedupFirstAux seen l = keepFirstSpec (l.filter (fun x => decide (x ∉ seen))) := by
  intro l
  induction l with
  | nil => intro seen; simp only [dedupFirstAux, List.filter_nil, keepFirstSpec_nil]
  | cons x xs ih =>
    intro seen
    by_cases hx : x ∈ seen
    · rw [List.filter_cons]
      simp only [dedupFirstAux, if_pos hx]
      simp only [hx, not_true_eq_false, decide_False, Bool.false_eq_true, if_false]
      exact ih seen
    · rw [List.filter_cons]
      simp only [dedupFirstAux, if_neg hx]
      simp only [hx, not_false_eq_true, decide_True, if_true]
      rw [keepFirstSpec_cons, ih (x :: seen)]
      congr 1
      rw [List.filter_filter]
      congr 1
      apply List.filter_congr
      intro a _
      by_cases h1 : a = x <;> by_cases h2 : a ∈ seen <;>
        simp [h1, h2, List.mem_cons]

theorem keepFirstSpec_sublist_len {α : Type} [DecidableEq α] :
    ∀ (n : Nat) (l : List α), l.length ≤ n → List.Sublist (keepFirstSpec l) l := by
  intro n
  induction n with
  | zero =>
    intro l hl
    have hnil : l = [] := List.length_eq_zero.mp (Nat.le_zero.mp hl)
    subst hnil
    rw [keepFirstSpec_nil]
  | succ n ih =>
    intro l hl
    cases l with
    | nil => rw [keepFirstSpec_nil]
    | cons x xs =>
      rw [keepFirstSpec_cons]
      apply List.Sublist.cons₂
      have h1 : List.Sublist (keepFirstSpec (xs.filter (fun y => decide (y ≠ x))))
          (xs.filter (fun y => decide (y ≠ x))) := by
        apply ih
        have hf := List.length_filter_le (fun y => decide (y ≠ x)) xs
        simp only [List.length_cons] at hl
        omega
      exact h1.trans (List.filter_sublist xs)

theorem keepFirstSpec_sublist {α : Type} [DecidableEq α] (l : List α) :
    List.Sublist (keepFirstSpec l) l :=
  keepFirstSpec_sublist_len l.length l (Nat.le_refl _)

theorem keepFirstSpec_nodup_len {α : Type} [DecidableEq α] :
    ∀ (n : Nat) (l : List α), l.length ≤ n → (keepFirstSpec l).Nodup := by
  intro n
  induction n with
  | zero =>
    intro l hl
    have hnil : l = [] := List.length_eq_zero.mp (Nat.le_zero.mp hl)
    subst hnil
    rw [keepFirstSpec_nil]
    exact List.nodup_nil
  | succ n ih =>
    intro l hl
    cases l with
    | nil =>
      rw [keepFirstSpec_nil]
      exact List.nodup_nil
    | cons x xs =>
      rw [keepFirstSpec_cons]
      have hlen : (xs.filter (fun y => decide (y ≠ x))).length ≤ n := by
        have hf := List.length_filter_le (fun y => decide (y ≠ x)) xs
        simp only [List.length_cons] at hl
        omega
      apply List.Nodup.cons
      · intro hmem
        have hsub := (keepFirstSpec_sublist (xs.filter (fun y => decide (y ≠ x)))).subset hmem
        have hkeep := List.of_mem_filter hsub
        simp at hkeep
      · exact ih _ hlen

/-- C7: processing a list of raw entries maps each through
`pre_process_path` and removes later duplicates under exact equality:
the result equals the specification-side first-occurrence deduplicator
`keepFirstSpec`, it is a sublist of the processed entries (so survivors
keep their input order and nothing is reordered), it contains no
duplicates, and the concrete list `["/a/b", "./b", "/a/b"]` under
workspace root `/a` collapses to exactly `["/a/b"]`. -/
theorem c7_dedup_keeps_first_in_order :
    (∀ (env : Env) (home : Option (List Char)) (entries : List (List Char))
        (ws : Option (List Char)),
      process_and_dedup env home entries ws =
        keepFirstSpec (entries.map (fun root => pre_process_path env home root ws))) ∧
    (∀ (env : Env) (home : Option (List Char)) (entries : List (List Char))
        (ws : Option (List Char)),
      List.Sublist (process_and_dedup env home entries ws)
        (entries.map (fun root => pre_process_path env home root ws))) ∧
    (∀ (env : Env) (home : Option (List Char)) (entries : List (List Char))
        (ws : Option (List Char)),
      (process_and_dedup env home entries ws).Nodup) ∧
    process_and_dedup env0 none ["/a/b".data, "./b".data, "/a/b".data] (some "/a".data)
      = ["/a/b".data] := by
  have key : ∀ (env : Env) (home : Option (List Char)) (entries : List (List Char))
      (ws : Option (List Char)),
      process_and_dedup env home entries ws =
        keepFirstSpec (entries.map (fun root => pre_process_path env home root ws)) := by
    intro env home entries ws
    unfold process_and_dedup
    rw [dedupFirstAux_eq_keepFirst]
    congr 1
    apply List.filter_eq_self.mpr
    intro a _
    simp
  refine ⟨key, ?_, ?_, ?_⟩
  · intro env home entries ws
    rw [key]
    exact keepFirstSpec_sublist _
  · intro env home entries ws
    rw [key]
    exact keepFirstSpec_nodup_len _ _ (Nat.le_refl _)
  · simp [process_and_dedup, dedupFirstAux, pre_process_path, replace_env_var, takeWord,
      stripDollar, replace_placeholders, findClose, pathJoin, envValue, isWordChar, env0]
    decide

theorem replace_env_var_no_dollar {s : List Char} (env : Env) (h : '$' ∉ s) :
    replace_env_var env s = s := by
  induction s with
  | nil => simp [replace_env_var]
  | cons c rest ih =>
    have hc : c ≠ '$' := fun hcc => h (hcc ▸ List.mem_cons_self c rest)
    simp only [replace_env_var, if_neg hc]
    rw [ih (fun hm => h (List.mem_cons_of_mem c hm))]

/-- C8 (counterexample): with the environment variable `X` set to `v` and
a non-UTF-8 workspace root, the input `$X/a` is returned as `v/a`:
environment substitution and `$`-stripping have already happened when the
workspace check fails, so the claim that the original input is returned
unchanged is false. -/
theorem c8_nonutf8_counterexample :
    pre_process_path envX none "$X/a".data none = "v/a".data ∧
    pre_process_path envX none "$X/a".data none ≠ "$X/a".data := by
  have h : pre_process_path envX none "$X/a".data none = "v/a".data := by
    simp [pre_process_path, replace_env_var, takeWord, stripDollar, envValue, isWordChar, envX]
  exact ⟨h, by rw [h]; decide⟩

/-- C8 (amended): when the workspace root is not valid UTF-8, the result
is the input after environment-variable substitution and `$`-stripping
only — no placeholder substitution, no anchoring, no normalization; in
particular an input containing no `$` at all is returned verbatim, even
when it contains `..` segments or a `\x7bworkspaceFolder\x7d` placeholder. -/
theorem c8_nonutf8_returns_env_processed :
    (∀ (env : Env) (home : Option (List Char)) (s : List Char),
      pre_process_path env home s none = stripDollar (replace_env_var env s)) ∧
    (∀ (env : Env) (home : Option (List Char)) (s : List Char), '$' ∉ s →
      pre_process_path env home s none = s) := by
  have h1 : ∀ (env : Env) (home : Option (List Char)) (s : List Char),
      pre_process_path env home s none = stripDollar (replace_env_var env s) := by
    intro env home s
    rfl
  refine ⟨h1, ?_⟩
  intro env home s hs
  rw [h1, replace_env_var_no_dollar env hs]
  apply List.filter_eq_self.mpr
  intro a ha
  simp only [decide_eq_true_eq]
  exact fun hcc => hs (hcc ▸ ha)

/-- Witness for C8 (amended): a `$`-free input containing a `..` segment
and a placeholder is returned verbatim under a non-UTF-8 workspace. -/
theorem c8_nonutf8_returns_env_processed_witness :
    pre_process_path env0 none "a/../\x7bworkspaceFolder\x7d".data none
      = "a/../\x7bworkspaceFolder\x7d".data :=
  c8_nonutf8_returns_env_processed.2 env0 none "a/../\x7bworkspaceFolder\x7d".data (by decide)

/-- C9: `pre_process_emmyrc` rewrites exactly the four path lists —
`workspace.workspace_roots`, `workspace.library`, `workspace.ignore_dir`
and `resource.paths`, each through `process_and_dedup` — and leaves every
other field of the configuration unchanged. -/
theorem c9_pre_process_emmyrc_frame
    {Comp Diag Sig Hint Run WR RR CL St Sem Ref Hov DC CA IV Dc Fmt : Type}
    (env : Env) (home : Option (List Char))
    (e : Emmyrc Comp Diag Sig Hint Run WR RR CL St Sem Ref Hov DC CA IV Dc Fmt)
    (ws : Option (List Char)) :
    (pre_process_emmyrc env home e ws).workspace.workspace_roots
        = process_and_dedup env home e.workspace.workspace_roots ws ∧
    (pre_process_emmyrc env home e ws).workspace.library
        = process_and_dedup env home e.workspace.library ws ∧
    (pre_process_emmyrc env home e ws).workspace.ignore_dir
        = process_and_dedup env home e.workspace.ignore_dir ws ∧
    (pre_process_emmyrc env home e ws).resource.paths
        = process_and_dedup env home e.resource.paths ws ∧
    (pre_process_emmyrc env home e ws).schema = e.schema ∧
    (pre_process_emmyrc env home e ws).completion = e.completion ∧
    (pre_process_emmyrc env home e ws).diagnostics = e.diagnostics ∧
    (pre_process_emmyrc env home e ws).signature = e.signature ∧
    (pre_process_emmyrc env home e ws).hint = e.hint ∧
    (pre_process_emmyrc env home e ws).runtime = e.runtime ∧
    (pre_process_emmyrc env home e ws).code_lens = e.code_lens ∧
    (pre_process_emmyrc env home e ws).strict = e.strict ∧
    (pre_process_emmyrc env home e ws).semantic_tokens = e.semantic_tokens ∧
    (pre_process_emmyrc env home e ws).references = e.references ∧
    (pre_process_emmyrc env home e ws).hover = e.hover ∧
    (pre_process_emmyrc env home e ws).document_color = e.document_color ∧
    (pre_process_emmyrc env home e ws).code_action = e.code_action ∧
    (pre_process_emmyrc env home e ws).inline_values = e.inline_values ∧
    (pre_process_emmyrc env home e ws).doc = e.doc ∧
    (pre_process_emmyrc env home e ws).format = e.format ∧
    (pre_process_emmyrc env home e ws).workspace.rest = e.workspace.rest ∧
    (pre_process_emmyrc env home e ws).resource.rest = e.resource.rest :=
  ⟨rfl, rfl, rfl, rfl, rfl, rfl, rfl, rfl, rfl, rfl, rfl,
   rfl, rfl, rfl, rfl, rfl, rfl, rfl, rfl, rfl, rfl, rfl⟩

/-- C10: `pre_process_path` is total and panic-free: the byte-level model
of the two slices `&path[1..]` and `&path[2..]` (which yields `none` on an
out-of-range or non-character-boundary slice, the situations in which Rust
would panic) always succeeds, because each slice runs only after the
corresponding ASCII prefix check (`~`, `./`) has succeeded; and every
fallible branch (missing home directory, non-UTF-8 workspace, unset
environment variable) returns a string.  Formally, the checked embedding
always returns `some` of the plain embedding's result. -/
theorem c10_pre_process_path_total (env : Env) (home : Option (List Char))
    (path : List Char) (workspace : Option (List Char)) :
    pre_process_path_checked env home path workspace
      = some (pre_process_path env home path workspace) := by
  unfold pre_process_path_checked pre_process_path
  cases workspace with
  | none => rfl
  | some ws =>
    simp only []
    set q := replace_placeholders env ws (stripDollar (replace_env_var env path)) with hq
    by_cases h1 : q.head? = some '~'
    · cases home with
      | none => simp [h1]
      | some hdir =>
        cases hqc : q with
        | nil => rw [hqc] at h1; simp at h1
        | cons c tail =>
          rw [hqc] at h1
          simp only [List.head?_cons, Option.some.injEq] at h1
          subst h1
          have hsz : ('~' : Char).utf8Size = 1 := by decide
          simp [hqc, dropBytesC, hsz]
    · by_cases h2 : q.take 2 = ['.', '/']
      · cases hqc : q with
        | nil => rw [hqc] at h2; simp at h2
        | cons c1 rest1 =>
          cases hqr : rest1 with
          | nil =>
            rw [hqc, hqr] at h2
            simp [List.take] at h2
          | cons c2 tail =>
            rw [hqr] at hqc
            rw [hqc] at h2
            simp only [List.take, List.cons.injEq] at h2
            obtain ⟨hc1, hc2, -⟩ := h2
            subst hc1
            subst hc2
            have hsz1 : ('.' : Char).utf8Size = 1 := by decide
            have hsz2 : ('/' : Char).utf8Size = 1 := by decide
            have hnot : ¬ (('.' :: '/' :: tail : List Char).head? = some '~') := by simp
            simp [hnot, dropBytesC, hsz1, hsz2, List.take]
      · by_cases h3 : hasRootC q = true
        · simp [h1, h2, h3]
        · simp [h1, h2, h3]

end EmmyluaConfig
